import Mathlib

/-!
Verification of the ozz categorization/rename engine: a shallow embedding of
the transaction processor (`src/core/processor`, embedded in the repository
next to its option-schema tests) together with proofs of the specified
properties.  Pure functions of the source become Lean functions; the
collaborator-provided environment (regular-expression engine, `Date` parsing,
invoice fetching) is passed in as data, mirroring the spec's external
interfaces.
-/

namespace Ozz

/-! ## JavaScript string primitives used by the engine -/

/-- The character class matched by `\s` in a JavaScript regular expression
(WhiteSpace plus LineTerminator). -/
def jsIsSpace (c : Char) : Bool :=
  c = ' ' || c = '\t' || c = '\n' || c = '\x0b' || c = '\x0c' || c = '\r' ||
  c = '\u00A0' || c = '\u1680' ||
  ('\u2000' ≤ c && c ≤ '\u200A') ||
  c = '\u2028' || c = '\u2029' || c = '\u202F' || c = '\u205F' ||
  c = '\u3000' || c = '\uFEFF'

/-- `String.prototype.trim`: strip leading and trailing whitespace. -/
def jsTrim (s : String) : String :=
  ⟨((s.data.dropWhile jsIsSpace).reverse.dropWhile jsIsSpace).reverse⟩

/-- Helper for `stripInstallmentSuffix`, working on the reversed character
list: recognise (in reverse) `\s*`, digits, `/`, digits, `\s*` and drop them.
Returns `none` when the string does not end in an installment suffix. -/
def stripSuffixRev (r : List Char) : Option (List Char) :=
  let r1 := r.dropWhile jsIsSpace
  let digits1 := r1.takeWhile Char.isDigit
  let r2 := r1.dropWhile Char.isDigit
  if digits1.isEmpty then none
  else
    match r2 with
    | '/' :: r3 =>
      let digits2 := r3.takeWhile Char.isDigit
      let r4 := r3.dropWhile Char.isDigit
      if digits2.isEmpty then none
      else some (r4.dropWhile jsIsSpace)
    | _ => none

/-- `description.replace(/\s*\d+\/\d+\s*$/, '')`: remove a trailing
"number/number" installment suffix (with surrounding whitespace) if present.
The regex is end-anchored, so the (leftmost, greedy) match consists of the
maximal digit run before the final `/`, preceded by a maximal whitespace run. -/
def stripInstallmentSuffix (s : String) : String :=
  match stripSuffixRev s.data.reverse with
  | some r => ⟨r.reverse⟩
  | none => s

/-- Shared base-description normalization of both installment resolvers:
strip the trailing `X/Y` suffix, then trim. -/
def baseDescription (s : String) : String :=
  jsTrim (stripInstallmentSuffix s)

/-! ## Glob matching (rename patterns)

`matchRename` translates each glob pattern to an anchored case-insensitive
regular expression: regex metacharacters are escaped, `*` becomes `.*` and
`?` becomes `.`.  The translated expression is always syntactically valid, so
the `try`/`catch` around its compilation is dead code; the translation
composed with the regex test is exactly the glob matcher below.  JavaScript's
`.` does not match line terminators, and the `i` flag canonicalizes case
(modelled here by ASCII upper-casing). -/

/-- Characters matched by `.` in a JavaScript regex without the `s` flag. -/
def jsDotMatches (c : Char) : Bool :=
  !(c = '\n' || c = '\r' || c = '\u2028' || c = '\u2029')

/-- Case canonicalization of the `i` flag (ASCII). -/
def canonChar (c : Char) : Char := c.toUpper

/-- All suffixes of `s` reachable by consuming zero or more characters that
`.` matches: the candidate continuation points of a (backtracking) `.*`. -/
def dotSuffixes : List Char → List (List Char)
  | [] => [[]]
  | c :: s => (c :: s) :: (if jsDotMatches c then dotSuffixes s else [])

/-- Full-string anchored glob match: `*` is any run of characters, `?` any
single character, everything else literal, case-insensitive.  A `.*` matches
exactly when the rest of the pattern matches some dot-reachable suffix. -/
def globMatch : List Char → List Char → Bool
  | [], s => s.isEmpty
  | '*' :: ps, s => (dotSuffixes s).any fun s2 => globMatch ps s2
  | '?' :: ps, s =>
    match s with
    | [] => false
    | c :: s2 => jsDotMatches c && globMatch ps s2
  | p :: ps, s =>
    match s with
    | [] => false
    | c :: s2 => (canonChar p = canonChar c) && globMatch ps s2

/-! ## Data model -/

/-- The transaction fields consulted by the engine (the API schema carries
further fields — `paid`, `account_id`, attachment counts, … — that the
processor never reads; they are omitted from the embedding). -/
structure Transaction where
  id : Nat
  description : String
  date : String
  amount_cents : Int
  total_installments : Nat
  installment : Nat
  category_id : Nat
  notes : String
  created_at : String
  updated_at : String
  tags : List String
  deriving DecidableEq

/-- A credit-card invoice: id, date and (when hydrated) its transactions.
`findInstallmentCategory` defensively skips invoices whose transaction list
is absent, hence the `Option`. -/
structure Invoice where
  id : Nat
  date : String
  transactions : Option (List Transaction)
  deriving DecidableEq

/-- A categorization rule from `rules.yaml`: regex pattern, target category
name, optional note.  Order in the rule list is significant. -/
structure Rule where
  pattern : String
  category : String
  note : Option String
  deriving DecidableEq

/-- The CategoryTable from `categories.yaml`: two ordered name→id groups. -/
structure Categories where
  essencial : List (String × Nat)
  estilo_de_vida : List (String × Nat)
  deriving DecidableEq

/-- Ordered rename map from `rename.yaml` (JavaScript object iteration order
for its string keys is declaration order). -/
abbrev Rename := List (String × String)

/-- TagTable from `tags.yaml`: category name → tag list. -/
abbrev Tags := List (String × List String)

/-- The configuration tables consumed by the engine.  (`loadAllConfig` also
loads a `pix` table, which `processBatch` never reads.) -/
structure AllConfig where
  categories : Categories
  rules : List Rule
  rename : Rename
  tags : Tags
  deriving DecidableEq

/-- Decision tag of a `ProcessResult`.  No processor code path produces
`conflict`; the member is preserved from the source type. -/
inductive Action where
  | update
  | rename
  | skip
  | conflict
  deriving DecidableEq

/-- Reason codes: skip reasons plus the category-source markers. -/
inductive Reason where
  | no_match
  | already_correct
  | manual_edit
  | installment
  | pattern
  deriving DecidableEq

/-- The staged field changes of one result. -/
structure Changes where
  category_id : Option Nat
  description : Option String
  notes : Option String
  tags : Option (List String)
  deriving DecidableEq

/-- One result per input transaction. -/
structure ProcessResult where
  transaction : Transaction
  action : Action
  changes : Option Changes
  reason : Option Reason
  deriving DecidableEq

/-- Result type of `shouldSkip`. -/
structure SkipResult where
  skip : Bool
  reason : Option Reason
  deriving DecidableEq

/-! ## Pattern matcher -/

/-- The collaborator's regular-expression engine: compiling a pattern with the
`i` flag either fails (invalid pattern, `none`) or yields a test against a
description.  `matchCategory` is parametric in this engine, exactly as the
source delegates matching to `RegExp`. -/
def RegexCompile : Type := String → Option (String → Bool)

/-- `matchCategory(description, rules)`: first rule (in order) whose pattern
compiles and matches wins; a rule whose pattern fails to compile is skipped
(the source logs a warning) and evaluation continues; `none` if no rule
matches. -/
def matchCategory (compile : RegexCompile) (description : String) :
    List Rule → Option String
  | [] => none
  | rule :: rest =>
    match compile rule.pattern with
    | none => matchCategory compile description rest
    | some test =>
      if test description then some rule.category
      else matchCategory compile description rest

/-- Case-insensitive substring test: models `new RegExp(p, 'i').test(s)` for
patterns that contain no regex metacharacters. -/
def isSubstringCI (pat s : String) : Bool :=
  let p := pat.data.map canonChar
  let t := s.data.map canonChar
  (List.range (t.length + 1)).any fun i => (t.drop i).take p.length = p

/-- A concrete engine instance for metacharacter-free patterns, used to
evaluate the spec's concrete examples. -/
def literalCompile : RegexCompile := fun pat => some fun s => isSubstringCI pat s

/-! ## Rename matcher -/

/-- `matchRename(description, renameMap)`: first glob pattern (in declaration
order) matching the entire description wins and its replacement is returned;
`none` if no pattern matches.  Note the source returns the replacement even
when it equals the existing description — the no-op check happens in
`processBatch`. -/
def matchRename (description : String) : Rename → Option String
  | [] => none
  | (pattern, newName) :: rest =>
    if globMatch pattern.data description.data then some newName
    else matchRename description rest

/-! ## Installment resolvers -/

/-- Same-batch variant `resolveInstallment(transaction, allTransactions)`:
for `installment > 1`, find a batch transaction with installment exactly one
less, the same `total_installments` and the same base description, and return
its `category_id` (which may be 0 — the caller's truthiness check guards it). -/
def resolveInstallment (transaction : Transaction)
    (allTransactions : List Transaction) : Option Nat :=
  if transaction.installment ≤ 1 then none
  else
    let targetInstallment := transaction.installment - 1
    let baseDesc := baseDescription transaction.description
    match allTransactions.find? (fun txn =>
        txn.installment = targetInstallment &&
        txn.total_installments = transaction.total_installments &&
        baseDescription txn.description = baseDesc) with
    | some previousInstallment => some previousInstallment.category_id
    | none => none

/-- Stable descending insertion by invoice date (string comparison; for the
ISO `YYYY-MM-DD` dates produced by the API, `localeCompare` agrees with
code-point order). -/
def insertByDateDesc (inv : Invoice) : List Invoice → List Invoice
  | [] => [inv]
  | x :: xs => if x.date < inv.date then inv :: x :: xs else x :: insertByDateDesc inv xs

/-- `invoiceList.sort((a, b) => b.date.localeCompare(a.date))`. -/
def sortByDateDesc : List Invoice → List Invoice
  | [] => []
  | x :: xs => insertByDateDesc x (sortByDateDesc xs)

/-- The pure selection logic of `getCachedInvoices`: sort the card's invoices
by date descending, locate the current invoice, and keep up to 12 invoices
starting there (or the first 12 when the current invoice is absent).  The
network fetch and per-run memoisation of the cache are the collaborator's;
the hydrated invoice list is passed in as data. -/
def selectInvoiceWindow (invoiceList : List Invoice) (currentInvoiceId : Nat) :
    List Invoice :=
  let sorted := sortByDateDesc invoiceList
  match sorted.findIdx? (fun inv => inv.id = currentInvoiceId) with
  | some currentIdx => (sorted.drop currentIdx).take 12
  | none => sorted.take 12

/-- The body of the inner loop of `findInstallmentCategory`: skip a
transaction that is not in the same purchase series (different
`total_installments`, installment not strictly smaller, different base
description) or has no truthy category; otherwise push its category id. -/
def priorScanStep (transaction : Transaction) (acc : List Nat)
    (txn : Transaction) : List Nat :=
  if txn.total_installments ≠ transaction.total_installments then acc
  else if transaction.installment ≤ txn.installment then acc
  else if baseDescription txn.description ≠ baseDescription transaction.description then acc
  else if txn.category_id = 0 then acc
  else acc ++ [txn.category_id]

/-- The scan of `findInstallmentCategory`, mirroring its nested loops: walk
the cached invoices (skipping an invoice with no transaction list) and
collect the category ids of qualifying prior installments. -/
def priorCategories (transaction : Transaction) (invoices : List Invoice) :
    List Nat :=
  invoices.foldl (fun acc invoice =>
    match invoice.transactions with
    | none => acc
    | some txns => txns.foldl (priorScanStep transaction) acc) []

/-- One step of the JavaScript `counts.set(cat, (counts.get(cat) || 0) + 1)`:
an existing key is updated in place, a new key is appended. -/
def bumpCount (counts : List (Nat × Nat)) (cat : Nat) : List (Nat × Nat) :=
  if counts.any (fun p => p.1 = cat) then
    counts.map (fun p => if p.1 = cat then (p.1, p.2 + 1) else p)
  else counts ++ [(cat, 1)]

/-- Occurrence counts in `Map` insertion order (first-seen order). -/
def buildCounts (l : List Nat) : List (Nat × Nat) :=
  l.foldl bumpCount []

/-- The mode-picking fold: keep the first entry whose count strictly exceeds
the running maximum (initially 0). -/
def pickModeAux (counts : List (Nat × Nat)) : Nat × Option Nat :=
  counts.foldl (fun acc p => if acc.1 < p.2 then (p.2, some p.1) else acc)
    ((0 : Nat), (none : Option Nat))

/-- `modeCategory` of the source: most frequent collected category, ties
broken by first-seen order. -/
def pickMode (counts : List (Nat × Nat)) : Option Nat :=
  (pickModeAux counts).2

/-- Cross-invoice variant `findInstallmentCategory(transaction, cardId,
currentInvoiceId)`, with the cached invoice window passed as data: collect
prior categories and return their mode, or `none` when no qualifying prior
installment with a category was found.  Total by construction — ambiguity
never raises. -/
def findInstallmentCategory (transaction : Transaction)
    (invoices : List Invoice) : Option Nat :=
  if transaction.installment ≤ 1 then none
  else
    let prior := priorCategories transaction invoices
    if prior.isEmpty then none
    else pickMode (buildCounts prior)

/-! ## Skip policy -/

/-- `new Date(u) > new Date(c)` where parsing may fail (an invalid `Date`
compares as `NaN`, making the comparison false). -/
def dateGt : Option Int → Option Int → Bool
  | some u, some c => c < u
  | _, _ => false

/-- `shouldSkip(transaction, suggestedCategoryId, force)`.  `Date` parsing is
the environment's and is passed in as `parseDate`. -/
def shouldSkip (parseDate : String → Option Int) (transaction : Transaction)
    (suggestedCategoryId : Option Nat) (force : Bool) : SkipResult :=
  match suggestedCategoryId with
  | none => { skip := true, reason := some Reason.no_match }
  | some suggested =>
    if transaction.category_id = suggested then
      { skip := true, reason := some Reason.already_correct }
    else if !force &&
        dateGt (parseDate transaction.updated_at) (parseDate transaction.created_at) then
      { skip := true, reason := some Reason.manual_edit }
    else { skip := false, reason := none }

/-! ## Category and tag lookup -/

/-- First binding of a string key in an association list (JavaScript object
keys are unique, so this is the object indexing `group[categoryName]`). -/
def lookupName (group : List (String × Nat)) (categoryName : String) : Option Nat :=
  match group.find? (fun p => p.1 = categoryName) with
  | some p => some p.2
  | none => none

/-- `getCategoryId(categoryName, categories)`: search the `essencial` group,
then `estilo_de_vida`. -/
def getCategoryId (categoryName : String) (categories : Categories) : Option Nat :=
  match lookupName categories.essencial categoryName with
  | some v => some v
  | none => lookupName categories.estilo_de_vida categoryName

/-- All ids of the CategoryTable (its "id space"). -/
def allCategoryIds (categories : Categories) : List Nat :=
  (categories.essencial ++ categories.estilo_de_vida).map (fun p => p.2)

/-- JavaScript `Map.set` on an id→name association list: update an existing
key in place, append a new one. -/
def mapSetIdName (m : List (Nat × String)) (k : Nat) (v : String) :
    List (Nat × String) :=
  if m.any (fun p => p.1 = k) then
    m.map (fun p => if p.1 = k then (p.1, v) else p)
  else m ++ [(k, v)]

/-- `Map.get` on the id→name map. -/
def mapGetIdName (m : List (Nat × String)) (k : Nat) : Option String :=
  match m.find? (fun p => p.1 = k) with
  | some p => some p.2
  | none => none

/-- `buildCategoryMap()`: the reverse id→name map, inserting the `essencial`
entries then the `estilo_de_vida` entries. -/
def buildCategoryMap (categories : Categories) : List (Nat × String) :=
  (categories.essencial ++ categories.estilo_de_vida).foldl
    (fun m p => mapSetIdName m p.2 p.1) []

/-- Tag-list lookup `tags[categoryName] || []`. -/
def tagsLookup (tags : Tags) (categoryName : String) : List String :=
  match tags.find? (fun p => p.1 = categoryName) with
  | some p => p.2
  | none => []

/-- `getTagsForCategory(categoryId, tags)`: a falsy (absent or zero) id gives
no tags; otherwise resolve the id to a name through the category map (built
once per run from the same CategoryTable) and look that name up in the
TagTable.  A falsy (absent or empty) name also gives no tags. -/
def getTagsForCategory (categoryId : Option Nat) (tags : Tags)
    (categoryMap : List (Nat × String)) : List String :=
  match categoryId with
  | none => []
  | some cid =>
    if cid = 0 then []
    else
      match mapGetIdName categoryMap cid with
      | none => []
      | some categoryName =>
        if categoryName = "" then [] else tagsLookup tags categoryName

/-! ## Batch processor -/

/-- The options record of `processBatch`.  `cardId`/`invoiceId` carry the
cross-invoice context; the source tests them for truthiness. -/
structure Options where
  apply : Bool
  force : Bool
  renameOnly : Bool
  tagsOnly : Bool
  cardId : Option Nat
  invoiceId : Option Nat
  deriving DecidableEq

/-- JavaScript truthiness of a `number | null | undefined`: present and
nonzero. -/
def truthyId : Option Nat → Bool
  | some n => n ≠ 0
  | none => false

/-- The installment-inheritance lookup of step 1a: cross-invoice when a
card/invoice context is present (truthy), else same-batch.  `invoiceDb` is
the collaborator's hydrated invoice list per card (the content the per-run
cache memoises). -/
def inheritedCategory (invoiceDb : Nat → List Invoice) (options : Options)
    (transactions : List Transaction) (txn : Transaction) : Option Nat :=
  if truthyId options.cardId && truthyId options.invoiceId then
    findInstallmentCategory txn
      (selectInvoiceWindow (invoiceDb (options.cardId.getD 0)) (options.invoiceId.getD 0))
  else resolveInstallment txn transactions

/-- Steps 1a–1b: the suggested category id and its source.  A truthy
inherited id wins with source `installment`; otherwise a matched rule name
(truthy, i.e. nonempty) is resolved through the CategoryTable with source
`pattern` — even when that resolution yields `none`. -/
def suggestedCategory (compile : RegexCompile) (invoiceDb : Nat → List Invoice)
    (config : AllConfig) (options : Options) (transactions : List Transaction)
    (txn : Transaction) : Option Nat × Option Reason :=
  let inherited := inheritedCategory invoiceDb options transactions txn
  if truthyId inherited then (inherited, some Reason.installment)
  else
    match matchCategory compile txn.description config.rules with
    | some categoryName =>
      if categoryName ≠ "" then
        (getCategoryId categoryName config.categories, some Reason.pattern)
      else (none, none)
    | none => (none, none)

/-- Step 2: the staged description change — the rename match against the
original description, suppressed (unless truthy and different) so that a
no-op never becomes a change. -/
def stagedDescription (config : AllConfig) (options : Options)
    (txn : Transaction) : Option String :=
  if !options.tagsOnly then
    match matchRename txn.description config.rename with
    | some newDescription =>
      if newDescription ≠ "" && newDescription ≠ txn.description then
        some newDescription
      else none
    | none => none
  else none

/-- Step 3: the staged tags change — from the current category id when
`tagsOnly`, else from a truthy suggested id; staged only when non-empty. -/
def stagedTagsChange (config : AllConfig) (options : Options)
    (sug : Option Nat) (txn : Transaction) : Option (List String) :=
  if options.tagsOnly then
    let t := getTagsForCategory (some txn.category_id) config.tags
      (buildCategoryMap config.categories)
    if t.isEmpty then none else some t
  else if truthyId sug then
    let t := getTagsForCategory sug config.tags (buildCategoryMap config.categories)
    if t.isEmpty then none else some t
  else none

/-- The changes object assembled for a non-skipped transaction. -/
def stageChanges (config : AllConfig) (options : Options) (sug : Option Nat)
    (txn : Transaction) : Changes :=
  { category_id := if truthyId sug then sug else none
    description := stagedDescription config options txn
    notes := none
    tags := stagedTagsChange config options sug txn }

/-- `Object.keys(changes).length > 0`. -/
def hasAnyChange (c : Changes) : Bool :=
  c.category_id.isSome || c.description.isSome || c.notes.isSome || c.tags.isSome

/-- Step 4, action classification: no changes → `skip`; only a description →
`rename`; otherwise `update`. -/
def classifyAction (c : Changes) : Action :=
  if hasAnyChange c then
    if c.description.isSome && c.category_id.isNone then Action.rename
    else Action.update
  else Action.skip

/-- The suggested category and source actually used for a transaction: the
category logic of step 1 runs only in normal mode (neither `renameOnly` nor
`tagsOnly`). -/
def processSug (compile : RegexCompile) (invoiceDb : Nat → List Invoice)
    (config : AllConfig) (options : Options) (transactions : List Transaction)
    (txn : Transaction) : Option Nat × Option Reason :=
  if !options.renameOnly && !options.tagsOnly then
    suggestedCategory compile invoiceDb config options transactions txn
  else (none, none)

/-- One iteration of the `processBatch` loop. -/
def processOne (compile : RegexCompile) (parseDate : String → Option Int)
    (invoiceDb : Nat → List Invoice) (config : AllConfig) (options : Options)
    (transactions : List Transaction) (txn : Transaction) : ProcessResult :=
  let normalMode := !options.renameOnly && !options.tagsOnly
  let sug := processSug compile invoiceDb config options transactions txn
  let skipResult := shouldSkip parseDate txn sug.1 options.force
  if normalMode && skipResult.skip then
    { transaction := txn, action := Action.skip, changes := none,
      reason := skipResult.reason }
  else
    let changes := stageChanges config options sug.1 txn
    { transaction := txn, action := classifyAction changes,
      changes := if hasAnyChange changes then some changes else none,
      reason := sug.2 }

/-- `processBatch(transactions, options)`: fold over the input, pushing one
result per transaction. -/
def processBatch (compile : RegexCompile) (parseDate : String → Option Int)
    (invoiceDb : Nat → List Invoice) (config : AllConfig)
    (transactions : List Transaction) (options : Options) : List ProcessResult :=
  transactions.foldl
    (fun results txn =>
      results ++ [processOne compile parseDate invoiceDb config options transactions txn])
    []

/-- The category id staged in a result's changes, if any. -/
def stagedCategory (r : ProcessResult) : Option Nat :=
  match r.changes with
  | some ch => ch.category_id
  | none => none

/-! ## Spec-side characterizations -/

/-- All transactions of an invoice window, in scan order. -/
def windowTransactions : List Invoice → List Transaction
  | [] => []
  | inv :: rest => inv.transactions.getD [] ++ windowTransactions rest

/-- A qualifying prior installment of the same purchase series: same
`total_installments`, same base description, strictly smaller installment
number. -/
def sameSeriesPrior (t txn : Transaction) : Bool :=
  txn.total_installments = t.total_installments &&
  txn.installment < t.installment &&
  baseDescription txn.description = baseDescription t.description

/-- A qualifying prior installment that also carries a (truthy) category. -/
def priorPred (t txn : Transaction) : Bool :=
  sameSeriesPrior t txn && txn.category_id ≠ 0

/-- `m` is the most frequent value of `l`, with ties broken towards the
earliest first occurrence. -/
def isFirstSeenMode (l : List Nat) (m : Nat) : Prop :=
  m ∈ l ∧ (∀ x ∈ l, l.count x ≤ l.count m) ∧
    (∀ x ∈ l, l.count x = l.count m → l.indexOf m ≤ l.indexOf x)

/-- First occurrences of `l`, in order (insertion order of the `Map` keys). -/
def firstOcc (l : List Nat) : List Nat :=
  l.foldl (fun acc x => if x ∈ acc then acc else acc ++ [x]) []

/-! ## Structural lemmas about the batch loop -/

theorem foldl_push_eq_map {α β : Type} (f : α → β) :
    ∀ (l : List α) (acc : List β),
      l.foldl (fun r x => r ++ [f x]) acc = acc ++ l.map f
  | [], acc => by simp
  | x :: xs, acc => by
    rw [List.foldl_cons, foldl_push_eq_map f xs]
    simp

theorem processBatch_eq_map (compile : RegexCompile)
    (parseDate : String → Option Int) (invoiceDb : Nat → List Invoice)
    (config : AllConfig) (transactions : List Transaction) (options : Options) :
    processBatch compile parseDate invoiceDb config transactions options
      = transactions.map
          (processOne compile parseDate invoiceDb config options transactions) := by
  unfold processBatch
  rw [foldl_push_eq_map]
  simp

theorem processOne_transaction (compile : RegexCompile)
    (parseDate : String → Option Int) (invoiceDb : Nat → List Invoice)
    (config : AllConfig) (options : Options) (transactions : List Transaction)
    (txn : Transaction) :
    (processOne compile parseDate invoiceDb config options transactions txn).transaction
      = txn := by
  unfold processOne
  dsimp only
  split <;> rfl

/-! ## find? and filter -/

theorem find?_filter_of_imp {α : Type} (p q : α → Bool)
    (hpq : ∀ x, p x = true → q x = true) :
    ∀ l : List α, (l.filter q).find? p = l.find? p
  | [] => rfl
  | x :: xs => by
    by_cases hp : p x = true
    · rw [List.filter_cons, if_pos (hpq x hp), List.find?_cons_of_pos _ hp,
        List.find?_cons_of_pos _ hp]
    · by_cases hq : q x = true
      · rw [List.filter_cons, if_pos hq, List.find?_cons_of_neg _ hp,
          List.find?_cons_of_neg _ hp]
        exact find?_filter_of_imp p q hpq xs
      · rw [List.filter_cons, if_neg hq, List.find?_cons_of_neg _ hp]
        exact find?_filter_of_imp p q hpq xs

/-! ## The prior-category scan as filter and map -/

theorem priorScanStep_eq (t : Transaction) (acc : List Nat) (txn : Transaction) :
    priorScanStep t acc txn
      = if priorPred t txn then acc ++ [txn.category_id] else acc := by
  unfold priorScanStep priorPred sameSeriesPrior
  by_cases h1 : txn.total_installments = t.total_installments <;>
    by_cases h2 : txn.installment < t.installment <;>
      by_cases h3 : baseDescription txn.description = baseDescription t.description <;>
        by_cases h4 : txn.category_id = 0 <;>
          simp [h1, h2, h3, h4, Nat.not_lt.symm, Nat.not_lt]

theorem foldl_priorScanStep (t : Transaction) :
    ∀ (txns : List Transaction) (acc : List Nat),
      txns.foldl (priorScanStep t) acc
        = acc ++ (txns.filter (priorPred t)).map (fun x => x.category_id)
  | [], acc => by simp
  | txn :: rest, acc => by
    rw [List.foldl_cons, foldl_priorScanStep t rest, priorScanStep_eq,
      List.filter_cons]
    by_cases hp : priorPred t txn
    · simp [hp]
    · simp [hp]

theorem foldl_invoices_priorScan (t : Transaction) :
    ∀ (invoices : List Invoice) (acc : List Nat),
      invoices.foldl (fun acc invoice =>
          match invoice.transactions with
          | none => acc
          | some txns => txns.foldl (priorScanStep t) acc) acc
        = acc ++ ((windowTransactions invoices).filter (priorPred t)).map
            (fun x => x.category_id)
  | [], acc => by simp [windowTransactions]
  | invoice :: rest, acc => by
    rw [List.foldl_cons, foldl_invoices_priorScan t rest]
    have hw : windowTransactions (invoice :: rest)
        = invoice.transactions.getD [] ++ windowTransactions rest := rfl
    rw [hw, List.filter_append, List.map_append]
    cases htx : invoice.transactions with
    | none => simp
    | some txns =>
      dsimp only [Option.getD]
      rw [foldl_priorScanStep]
      simp [List.append_assoc]

theorem priorCategories_eq (t : Transaction) (invoices : List Invoice) :
    priorCategories t invoices
      = ((windowTransactions invoices).filter (priorPred t)).map
          (fun x => x.category_id) := by
  unfold priorCategories
  rw [foldl_invoices_priorScan]
  simp

/-! ## First occurrences -/

theorem mem_firstOcc_foldl (a : Nat) :
    ∀ (l : List Nat) (acc : List Nat),
      (a ∈ l.foldl (fun acc x => if x ∈ acc then acc else acc ++ [x]) acc)
        ↔ (a ∈ acc ∨ a ∈ l)
  | [], acc => by simp
  | x :: xs, acc => by
    rw [List.foldl_cons, mem_firstOcc_foldl a xs]
    by_cases hx : x ∈ acc
    · simp only [if_pos hx, List.mem_cons]
      constructor
      · rintro (h | h)
        · exact Or.inl h
        · exact Or.inr (Or.inr h)
      · rintro (h | rfl | h)
        · exact Or.inl h
        · exact Or.inl hx
        · exact Or.inr h
    · simp only [if_neg hx, List.mem_append, List.mem_singleton, List.mem_cons]
      tauto

theorem mem_firstOcc {a : Nat} {l : List Nat} : a ∈ firstOcc l ↔ a ∈ l := by
  unfold firstOcc
  rw [mem_firstOcc_foldl]
  simp

theorem firstOcc_concat (s : List Nat) (x : Nat) :
    firstOcc (s ++ [x]) = if x ∈ s then firstOcc s else firstOcc s ++ [x] := by
  have h := mem_firstOcc_foldl x s ([] : List Nat)
  unfold firstOcc
  rw [List.foldl_append, List.foldl_cons, List.foldl_nil]
  by_cases hx : x ∈ s
  · have hmem : x ∈ s.foldl (fun acc x => if x ∈ acc then acc else acc ++ [x]) [] := by
      rw [h]; exact Or.inr hx
    rw [if_pos hmem, if_pos hx]
  · have hmem : x ∉ s.foldl (fun acc x => if x ∈ acc then acc else acc ++ [x]) [] := by
      rw [h]; simp [hx]
    rw [if_neg hmem, if_neg hx]

/-! ## Occurrence counts in insertion order -/

theorem buildCounts_concat (s : List Nat) (x : Nat) :
    buildCounts (s ++ [x]) = bumpCount (buildCounts s) x := by
  unfold buildCounts
  rw [List.foldl_append, List.foldl_cons, List.foldl_nil]

theorem buildCounts_eq : ∀ l : List Nat,
    buildCounts l = (firstOcc l).map (fun k => (k, l.count k)) := by
  intro l
  induction l using List.reverseRecOn with
  | nil => rfl
  | append_singleton s x ih =>
    rw [buildCounts_concat, ih, firstOcc_concat]
    unfold bumpCount
    by_cases hx : x ∈ s
    · have hany : ((firstOcc s).map fun k => (k, s.count k)).any (fun p => p.1 = x)
          = true := by
        rw [List.any_eq_true]
        exact ⟨(x, s.count x), List.mem_map_of_mem _ (mem_firstOcc.mpr hx), by simp⟩
      rw [if_pos hany, if_pos hx, List.map_map]
      apply List.map_congr_left
      intro k hk
      by_cases hkx : k = x
      · subst hkx
        simp [List.count_append]
      · simp only [Function.comp]
        rw [if_neg (by simpa using hkx)]
        simp [List.count_append, List.count_cons, hkx, Ne.symm hkx]
    · have hany : ((firstOcc s).map fun k => (k, s.count k)).any (fun p => p.1 = x)
          = false := by
        rw [Bool.eq_false_iff]
        intro hc
        rw [List.any_eq_true] at hc
        obtain ⟨p, hp, hpx⟩ := hc
        obtain ⟨k, hk, hfk⟩ := List.mem_map.mp hp
        apply hx
        have : k = x := by
          have : p.1 = k := by rw [← hfk]
          simp only [decide_eq_true_eq] at hpx
          rw [← this, hpx]
        exact mem_firstOcc.mp (this ▸ hk)
      rw [if_neg (by simp [hany]), if_neg hx, List.map_append]
      congr 1
      · apply List.map_congr_left
        intro k hk
        have hkx : k ≠ x := fun h => hx (h ▸ mem_firstOcc.mp hk)
        simp [List.count_append, List.count_cons, hkx, Ne.symm hkx]
      · have : x ∉ s := hx
        simp [List.count_append, List.count_eq_zero.mpr this]

/-! ## The first occurrence list is ordered by first index -/

theorem pairwise_firstOcc_indexOf (l : List Nat) :
    List.Pairwise (fun a b => l.indexOf a < l.indexOf b) (firstOcc l) := by
  induction l using List.reverseRecOn with
  | nil => simp [firstOcc]
  | append_singleton s x ih =>
    rw [firstOcc_concat]
    by_cases hx : x ∈ s
    · rw [if_pos hx]
      refine ih.imp_of_mem ?_
      intro a b ha hb hab
      rw [List.indexOf_append_of_mem (mem_firstOcc.mp ha),
        List.indexOf_append_of_mem (mem_firstOcc.mp hb)]
      exact hab
    · rw [if_neg hx, List.pairwise_append]
      refine ⟨ih.imp_of_mem ?_, List.pairwise_singleton _ _, ?_⟩
      · intro a b ha hb hab
        rw [List.indexOf_append_of_mem (mem_firstOcc.mp ha),
          List.indexOf_append_of_mem (mem_firstOcc.mp hb)]
        exact hab
      · intro a ha b hb
        rw [List.mem_singleton] at hb
        subst hb
        have haS : a ∈ s := mem_firstOcc.mp ha
        rw [List.indexOf_append_of_mem haS, List.indexOf_append_of_not_mem hx,
          List.indexOf_cons_self]
        have := List.indexOf_lt_length.mpr haS
        omega

/-! ## The mode-picking fold keeps the first maximal entry -/

theorem pickModeAux_concat (cs : List (Nat × Nat)) (p : Nat × Nat) :
    pickModeAux (cs ++ [p])
      = if (pickModeAux cs).1 < p.2 then (p.2, some p.1) else pickModeAux cs := by
  unfold pickModeAux
  rw [List.foldl_append, List.foldl_cons, List.foldl_nil]

theorem pickModeAux_split :
    ∀ cs : List (Nat × Nat), (∀ p ∈ cs, 0 < p.2) → cs ≠ [] →
      ∃ pre best post, cs = pre ++ best :: post ∧
        pickModeAux cs = (best.2, some best.1) ∧
        (∀ p ∈ cs, p.2 ≤ best.2) ∧ (∀ p ∈ pre, p.2 < best.2) := by
  intro cs
  induction cs using List.reverseRecOn with
  | nil => intro _ h; exact absurd rfl h
  | append_singleton cs p ih =>
    intro hpos _
    by_cases hcs : cs = []
    · subst hcs
      refine ⟨[], p, [], by simp, ?_, ?_, by simp⟩
      · rw [pickModeAux_concat]
        have hp : 0 < p.2 := hpos p (by simp)
        simp [pickModeAux, hp]
      · intro q hq
        simp only [List.nil_append, List.mem_cons, List.not_mem_nil, or_false] at hq
        subst hq
        exact Nat.le_refl _
    · obtain ⟨pre, best, post, hdecomp, haux, hle, hlt⟩ :=
        ih (fun q hq => hpos q (by simp [hq])) hcs
      rw [pickModeAux_concat, haux]
      by_cases hcmp : best.2 < p.2
      · refine ⟨cs, p, [], by simp, by simp [hcmp], ?_, ?_⟩
        · intro q hq
          rcases List.mem_append.mp hq with h | h
          · exact Nat.le_of_lt (Nat.lt_of_le_of_lt (hle q h) hcmp)
          · rw [List.mem_singleton] at h
            subst h
            exact Nat.le_refl _
        · intro q hq
          exact Nat.lt_of_le_of_lt (hle q hq) hcmp
      · refine ⟨pre, best, post ++ [p], ?_, by simp [hcmp], ?_, hlt⟩
        · rw [hdecomp]
          simp
        · intro q hq
          rcases List.mem_append.mp hq with h | h
          · exact hle q h
          · rw [List.mem_singleton] at h
            subst h
            exact Nat.le_of_not_lt hcmp

/-- Decompose a list along a decomposition of its image under `map`. -/
theorem map_eq_append_cons {α β : Type} (f : α → β) :
    ∀ (pre : List β) (b : β) (post : List β) (l : List α),
      l.map f = pre ++ b :: post →
      ∃ pre2 b2 post2, l = pre2 ++ b2 :: post2 ∧
        pre2.map f = pre ∧ f b2 = b ∧ post2.map f = post
  | [], b, post, l => by
    cases l with
    | nil => intro h; simp at h
    | cons x xs =>
      intro h
      rw [List.map_cons, List.nil_append] at h
      injection h with h1 h2
      exact ⟨[], x, xs, by simp, by simp, h1, h2⟩
  | q :: pre, b, post, l => by
    cases l with
    | nil => intro h; simp at h
    | cons x xs =>
      intro h
      rw [List.map_cons, List.cons_append] at h
      injection h with h1 h2
      obtain ⟨pre2, b2, post2, hxs, hpre, hb, hpost⟩ :=
        map_eq_append_cons f pre b post xs h2
      exact ⟨x :: pre2, b2, post2, by rw [hxs]; simp, by simp [h1, hpre], hb, hpost⟩

/-- The mode of a nonempty collection, as computed by `buildCounts` and
`pickMode`, is its most frequent value with ties broken by first occurrence. -/
theorem pickMode_buildCounts_spec (l : List Nat) (hl : l ≠ []) :
    ∃ m, pickMode (buildCounts l) = some m ∧ isFirstSeenMode l m := by
  have hcs : buildCounts l = (firstOcc l).map (fun k => (k, l.count k)) :=
    buildCounts_eq l
  have hpos : ∀ p ∈ buildCounts l, 0 < p.2 := by
    intro p hp
    rw [hcs] at hp
    obtain ⟨k, hk, hfk⟩ := List.mem_map.mp hp
    have : k ∈ l := mem_firstOcc.mp hk
    have hc : 0 < l.count k := List.count_pos_iff.mpr this
    rw [← hfk]
    exact hc
  have hne : buildCounts l ≠ [] := by
    obtain ⟨y, hy⟩ := List.exists_mem_of_ne_nil l hl
    have hyf : y ∈ firstOcc l := mem_firstOcc.mpr hy
    rw [hcs]
    intro hcontra
    rw [List.map_eq_nil_iff] at hcontra
    rw [hcontra] at hyf
    exact List.not_mem_nil y hyf
  obtain ⟨pre, best, post, hdecomp, haux, hle, hlt⟩ :=
    pickModeAux_split (buildCounts l) hpos hne
  rw [hcs] at hdecomp
  obtain ⟨preK, k0, postK, hfo, hpreK, hk0, hpostK⟩ :=
    map_eq_append_cons _ pre best post (firstOcc l) hdecomp
  have hbest1 : best.1 = k0 := by rw [← hk0]
  have hbest2 : best.2 = l.count k0 := by rw [← hk0]
  refine ⟨k0, ?_, ?_, ?_, ?_⟩
  · unfold pickMode
    rw [haux, hbest1]
  · exact mem_firstOcc.mp (by rw [hfo]; simp)
  · intro x hx
    have hxf : x ∈ firstOcc l := mem_firstOcc.mpr hx
    have hmem : (x, l.count x) ∈ buildCounts l := by
      rw [hcs]
      exact List.mem_map_of_mem _ hxf
    have := hle _ hmem
    rw [hbest2] at this
    exact this
  · intro x hx hcx
    have hxf : x ∈ firstOcc l := mem_firstOcc.mpr hx
    rw [hfo] at hxf
    rcases List.mem_append.mp hxf with hxpre | hxrest
    · exfalso
      have hmem : (x, l.count x) ∈ pre := by
        rw [← hpreK]
        exact List.mem_map_of_mem _ hxpre
      have := hlt _ hmem
      rw [hbest2] at this
      omega
    · rcases List.mem_cons.mp hxrest with hxk | hxpost
      · subst hxk
        exact Nat.le_refl _
      · have hpw := pairwise_firstOcc_indexOf l
        rw [hfo, List.pairwise_append] at hpw
        have hpw2 := hpw.2.1
        rw [List.pairwise_cons] at hpw2
        exact Nat.le_of_lt (hpw2.1 x hxpost)

/-! ## findInstallmentCategory characterizations -/

theorem findInstallmentCategory_none_of_empty (t : Transaction)
    (invs : List Invoice) (h : priorCategories t invs = []) :
    findInstallmentCategory t invs = none := by
  unfold findInstallmentCategory
  split
  · rfl
  · simp [h]

theorem findInstallmentCategory_spec (t : Transaction) (invs : List Invoice)
    (h2 : 1 < t.installment) (hne : priorCategories t invs ≠ []) :
    ∃ m, findInstallmentCategory t invs = some m ∧
      isFirstSeenMode (priorCategories t invs) m := by
  obtain ⟨m, hm, hspec⟩ := pickMode_buildCounts_spec (priorCategories t invs) hne
  refine ⟨m, ?_, hspec⟩
  unfold findInstallmentCategory
  rw [if_neg (by omega : ¬t.installment ≤ 1)]
  simpa [List.isEmpty_iff, hne] using hm

theorem findInstallmentCategory_mem (t : Transaction) (invs : List Invoice)
    (c : Nat) (h : findInstallmentCategory t invs = some c) :
    c ∈ priorCategories t invs := by
  by_cases h1 : t.installment ≤ 1
  · unfold findInstallmentCategory at h
    rw [if_pos h1] at h
    exact absurd h (by simp)
  · by_cases hne : priorCategories t invs = []
    · rw [findInstallmentCategory_none_of_empty t invs hne] at h
      exact absurd h (by simp)
    · obtain ⟨m, hm, hspec⟩ := findInstallmentCategory_spec t invs (by omega) hne
      rw [hm] at h
      injection h with h
      subst h
      exact hspec.1

theorem mem_priorCategories (t : Transaction) (invs : List Invoice) (c : Nat)
    (h : c ∈ priorCategories t invs) :
    ∃ t2 ∈ windowTransactions invs, priorPred t t2 = true ∧ t2.category_id = c := by
  rw [priorCategories_eq] at h
  obtain ⟨t2, ht2, hc⟩ := List.mem_map.mp h
  rw [List.mem_filter] at ht2
  exact ⟨t2, ht2.1, ht2.2, hc⟩

theorem priorCategories_nonzero (t : Transaction) (invs : List Invoice)
    (c : Nat) (h : c ∈ priorCategories t invs) : c ≠ 0 := by
  obtain ⟨t2, _, hpred, hc⟩ := mem_priorCategories t invs c h
  unfold priorPred at hpred
  rw [Bool.and_eq_true] at hpred
  have := hpred.2
  simp only [decide_eq_true_eq] at this
  rw [← hc]
  exact this

/-! ## Provenance of resolved category ids -/

theorem lookupName_mem (group : List (String × Nat)) (name : String) (v : Nat)
    (h : lookupName group name = some v) : v ∈ group.map (fun p => p.2) := by
  unfold lookupName at h
  cases hf : group.find? (fun p => p.1 = name) with
  | none => rw [hf] at h; exact absurd h (by simp)
  | some p =>
    rw [hf] at h
    injection h with h1
    subst h1
    exact List.mem_map_of_mem _ (List.mem_of_find?_eq_some hf)

theorem getCategoryId_mem (name : String) (cats : Categories) (c : Nat)
    (h : getCategoryId name cats = some c) : c ∈ allCategoryIds cats := by
  unfold getCategoryId at h
  unfold allCategoryIds
  rw [List.map_append, List.mem_append]
  cases he : lookupName cats.essencial name with
  | some v =>
    rw [he] at h
    injection h with h1
    subst h1
    exact Or.inl (lookupName_mem _ _ _ he)
  | none =>
    rw [he] at h
    exact Or.inr (lookupName_mem _ _ _ h)

theorem resolveInstallment_mem (t : Transaction) (l : List Transaction) (c : Nat)
    (h : resolveInstallment t l = some c) : ∃ t2 ∈ l, t2.category_id = c := by
  unfold resolveInstallment at h
  split at h
  · exact absurd h (by simp)
  · dsimp only at h
    split at h
    next prev heq =>
      injection h with h1
      exact ⟨prev, List.mem_of_find?_eq_some heq, h1⟩
    next => exact absurd h (by simp)

/-! ## Noninterference: later installments never influence resolution -/

/-- The restriction of a batch to installments strictly below the target's. -/
def belowTarget (t : Transaction) (txn : Transaction) : Bool :=
  txn.installment < t.installment

/-- The restriction of an invoice window to installments strictly below the
target's. -/
def restrictBelow (t : Transaction) (invs : List Invoice) : List Invoice :=
  invs.map fun inv =>
    { inv with transactions := inv.transactions.map fun txns => txns.filter (belowTarget t) }

theorem resolveInstallment_restrict (t : Transaction) (l : List Transaction) :
    resolveInstallment t (l.filter (belowTarget t)) = resolveInstallment t l := by
  unfold resolveInstallment
  split
  · rfl
  · next h1 =>
    dsimp only
    rw [find?_filter_of_imp]
    intro x hx
    rw [Bool.and_eq_true, Bool.and_eq_true] at hx
    have hinst : x.installment = t.installment - 1 := by
      have := hx.1.1
      simpa using this
    unfold belowTarget
    simp only [decide_eq_true_eq]
    omega

theorem windowTransactions_restrict (t : Transaction) :
    ∀ invs : List Invoice,
      windowTransactions (restrictBelow t invs)
        = (windowTransactions invs).filter (belowTarget t)
  | [] => rfl
  | inv :: rest => by
    have h1 : windowTransactions (restrictBelow t (inv :: rest))
        = (inv.transactions.map fun txns => txns.filter (belowTarget t)).getD []
          ++ windowTransactions (restrictBelow t rest) := rfl
    have h2 : windowTransactions (inv :: rest)
        = inv.transactions.getD [] ++ windowTransactions rest := rfl
    rw [h1, h2, windowTransactions_restrict t rest, List.filter_append]
    cases inv.transactions with
    | none => rfl
    | some txns => rfl

theorem priorCategories_restrict (t : Transaction) (invs : List Invoice) :
    priorCategories t (restrictBelow t invs) = priorCategories t invs := by
  rw [priorCategories_eq, priorCategories_eq, windowTransactions_restrict,
    List.filter_filter]
  congr 1
  apply List.filter_congr
  intro x _
  cases hp : priorPred t x with
  | false => rfl
  | true =>
    have hb : belowTarget t x = true := by
      unfold priorPred sameSeriesPrior at hp
      rw [Bool.and_eq_true, Bool.and_eq_true, Bool.and_eq_true] at hp
      have := hp.1.1.2
      unfold belowTarget
      simpa using this
    simp [hb]

theorem findInstallmentCategory_restrict (t : Transaction) (invs : List Invoice) :
    findInstallmentCategory t (restrictBelow t invs)
      = findInstallmentCategory t invs := by
  unfold findInstallmentCategory
  rw [priorCategories_restrict]

/-! ## Staged changes -/

theorem stagedDescription_ne (config : AllConfig) (options : Options)
    (txn : Transaction) :
    stagedDescription config options txn ≠ some txn.description := by
  unfold stagedDescription
  by_cases ht : options.tagsOnly
  · simp [ht]
  · simp only [ht, Bool.not_false, if_true]
    cases hm : matchRename txn.description config.rename with
    | none => simp
    | some nd =>
      cases hcond : (decide (nd ≠ "") && decide (nd ≠ txn.description)) with
      | false => simp [hcond]
      | true =>
        rw [Bool.and_eq_true, decide_eq_true_eq, decide_eq_true_eq] at hcond
        simp [hcond.1, hcond.2]

theorem processOne_skip (compile : RegexCompile) (parseDate : String → Option Int)
    (invoiceDb : Nat → List Invoice) (config : AllConfig) (options : Options)
    (transactions : List Transaction) (txn : Transaction)
    (hnorm : (!options.renameOnly && !options.tagsOnly) = true)
    (hskip : (shouldSkip parseDate txn
        (processSug compile invoiceDb config options transactions txn).1
        options.force).skip = true) :
    processOne compile parseDate invoiceDb config options transactions txn
      = { transaction := txn, action := Action.skip, changes := none,
          reason := (shouldSkip parseDate txn
            (processSug compile invoiceDb config options transactions txn).1
            options.force).reason } := by
  unfold processOne
  dsimp only
  rw [hnorm, hskip]
  rfl

theorem processOne_noskip (compile : RegexCompile) (parseDate : String → Option Int)
    (invoiceDb : Nat → List Invoice) (config : AllConfig) (options : Options)
    (transactions : List Transaction) (txn : Transaction)
    (h : (!options.renameOnly && !options.tagsOnly &&
        (shouldSkip parseDate txn
          (processSug compile invoiceDb config options transactions txn).1
          options.force).skip) = false) :
    processOne compile parseDate invoiceDb config options transactions txn
      = { transaction := txn
          action := classifyAction (stageChanges config options
            (processSug compile invoiceDb config options transactions txn).1 txn)
          changes :=
            if hasAnyChange (stageChanges config options
                (processSug compile invoiceDb config options transactions txn).1 txn) then
              some (stageChanges config options
                (processSug compile invoiceDb config options transactions txn).1 txn)
            else none
          reason := (processSug compile invoiceDb config options transactions txn).2 } := by
  unfold processOne
  dsimp only
  rw [h]
  rfl

theorem processOne_changes_some (compile : RegexCompile)
    (parseDate : String → Option Int) (invoiceDb : Nat → List Invoice)
    (config : AllConfig) (options : Options) (transactions : List Transaction)
    (txn : Transaction) (ch : Changes)
    (h : (processOne compile parseDate invoiceDb config options transactions txn).changes
      = some ch) :
    ch = stageChanges config options
      (processSug compile invoiceDb config options transactions txn).1 txn := by
  by_cases hc : (!options.renameOnly && !options.tagsOnly &&
      (shouldSkip parseDate txn
        (processSug compile invoiceDb config options transactions txn).1
        options.force).skip) = true
  · rw [Bool.and_eq_true] at hc
    rw [processOne_skip compile parseDate invoiceDb config options transactions txn
      hc.1 hc.2] at h
    exact absurd h (by simp)
  · rw [processOne_noskip compile parseDate invoiceDb config options transactions txn
      (Bool.eq_false_iff.mpr hc)] at h
    dsimp only at h
    split at h
    · injection h with h
      exact h.symm
    · exact absurd h (by simp)

theorem processSug_fst_provenance (compile : RegexCompile)
    (invoiceDb : Nat → List Invoice) (config : AllConfig) (options : Options)
    (transactions : List Transaction) (txn : Transaction) (c : Nat)
    (h : (processSug compile invoiceDb config options transactions txn).1 = some c) :
    c ∈ allCategoryIds config.categories
      ∨ inheritedCategory invoiceDb options transactions txn = some c := by
  unfold processSug at h
  split at h
  · unfold suggestedCategory at h
    dsimp only at h
    by_cases hinh : truthyId (inheritedCategory invoiceDb options transactions txn) = true
    · rw [if_pos hinh] at h
      exact Or.inr h
    · rw [if_neg hinh] at h
      cases hm : matchCategory compile txn.description config.rules with
      | none =>
        rw [hm] at h
        exact absurd h (by simp)
      | some name =>
        rw [hm] at h
        dsimp only at h
        by_cases hn : name = ""
        · rw [if_neg (by simp [hn])] at h
          exact absurd h (by simp)
        · rw [if_pos (by simp [hn])] at h
          exact Or.inl (getCategoryId_mem name config.categories c h)
  · exact absurd h (by simp)

theorem inheritedCategory_provenance (invoiceDb : Nat → List Invoice)
    (options : Options) (transactions : List Transaction) (txn : Transaction)
    (c : Nat) (h : inheritedCategory invoiceDb options transactions txn = some c) :
    (∃ t2 ∈ transactions, t2.category_id = c)
      ∨ (∃ t2 ∈ windowTransactions (selectInvoiceWindow
            (invoiceDb (options.cardId.getD 0)) (options.invoiceId.getD 0)),
          t2.category_id = c) := by
  unfold inheritedCategory at h
  split at h
  · have hmem := findInstallmentCategory_mem _ _ _ h
    obtain ⟨t2, ht2, _, hc⟩ := mem_priorCategories _ _ _ hmem
    exact Or.inr ⟨t2, ht2, hc⟩
  · exact Or.inl (resolveInstallment_mem _ _ _ h)

/-- The qualifying prior installments of the claim's scan, before the truthy
category filter. -/
def qualifyingPrior (t : Transaction) (invs : List Invoice) : List Transaction :=
  (windowTransactions invs).filter (sameSeriesPrior t)

/-! ## Concrete fixtures for witnesses and counterexamples -/

/-- A `Date` parse environment mapping every timestamp to the same instant
(creation equals last update). -/
def constParse : String → Option Int := fun _ => some 0

/-- A parse environment where `"later"` parses after everything else. -/
def laterParse : String → Option Int := fun s => if s = "later" then some 2 else some 1

/-- An invoice database with no invoices. -/
def emptyInvoiceDb : Nat → List Invoice := fun _ => []

/-- Empty configuration tables. -/
def fxCfgEmpty : AllConfig := ⟨⟨[], []⟩, [], [], []⟩

/-- Normal-mode options (no flags, no card/invoice context). -/
def fxOptsNormal : Options := ⟨false, false, false, false, none, none⟩

/-- Tags-only options. -/
def fxOptsTags : Options := ⟨false, false, false, true, none, none⟩

/-- Rename-only options. -/
def fxOptsRename : Options := ⟨false, false, true, false, none, none⟩

/-- A first installment carrying category 99999, an id outside any table. -/
def fxTxNetflix1 : Transaction :=
  ⟨1, "Netflix 1/12", "2025-01-01", -100, 12, 1, 99999, "", "a", "a", []⟩

/-- The second installment of the same purchase, uncategorized and untouched. -/
def fxTxNetflix2 : Transaction :=
  ⟨2, "Netflix 2/12", "2025-02-01", -100, 12, 2, 0, "", "a", "a", []⟩

/-- Configuration with one category and one rule resolving to it. -/
def fxCfgPattern : AllConfig :=
  ⟨⟨[("mercado", 10)], []⟩, [⟨"MERCADO", "mercado", none⟩], [], []⟩

/-- An uncategorized, unedited transaction matching the `MERCADO` rule. -/
def fxTxMercado : Transaction :=
  ⟨6, "MERCADO X", "2025-01-01", -100, 1, 1, 0, "", "a", "a", []⟩

/-- Configuration whose single rule targets a name absent from the table. -/
def fxCfgGhost : AllConfig :=
  ⟨⟨[("food", 7)], []⟩, [⟨"FOO", "ghost", none⟩], [], []⟩

/-- A transaction matching the ghost rule. -/
def fxTxFoo : Transaction :=
  ⟨4, "FOO BAR", "2025-01-01", -100, 1, 1, 0, "", "a", "a", []⟩

/-- Configuration with category groceries=42 tagged essential/food. -/
def fxCfgGroceries : AllConfig :=
  ⟨⟨[("groceries", 42)], []⟩, [], [], [("groceries", ["essential", "food"])]⟩

/-- A transaction currently categorized as groceries (42). -/
def fxTxGroceries : Transaction :=
  ⟨3, "MKT", "2025-01-01", -100, 1, 1, 42, "", "a", "a", []⟩

/-- Configuration with a single `UBER*` rename mapping. -/
def fxCfgUber : AllConfig := ⟨⟨[], []⟩, [], [("UBER*", "Uber")], []⟩

/-- A transaction whose description the Uber mapping rewrites. -/
def fxTxUber : Transaction :=
  ⟨5, "UBER TRIP", "2025-01-01", -100, 1, 1, 3, "", "a", "a", []⟩

/-- A transaction manually edited after creation (`updated_at` parses later). -/
def fxTxEdited : Transaction :=
  ⟨7, "EDITED", "2025-01-01", -100, 1, 1, 3, "", "base", "later", []⟩

/-- Installment 5-of-5 of a purchase, used to exercise the mode. -/
def fxTxTarget : Transaction :=
  ⟨99, "X 5/5", "2025-05-01", -5, 5, 5, 0, "", "a", "a", []⟩

/-- Installment `inst` of the same purchase with category `cat`. -/
def fxMkPrior (i inst cat : Nat) : Transaction :=
  ⟨i, "X " ++ toString inst ++ "/5", "2025-01-01", -5, 5, inst, cat, "", "a", "a", []⟩

/-- An invoice holding installments 1 and 2 (categories 7 and 9). -/
def fxInv1 : Invoice := ⟨1, "2025-05-01", some [fxMkPrior 1 1 7, fxMkPrior 2 2 9]⟩

/-- An invoice holding installments 3 and 4 (categories 9 and 7). -/
def fxInv2 : Invoice := ⟨2, "2025-04-01", some [fxMkPrior 3 3 9, fxMkPrior 4 4 7]⟩

/-- An invoice whose only qualifying prior installment is uncategorized. -/
def fxInvZero : Invoice := ⟨3, "2025-03-01", some [fxMkPrior 5 1 0]⟩

/-- Whether a rule's pattern compiles and matches the description. -/
def ruleMatches (compile : RegexCompile) (description : String) (r : Rule) : Bool :=
  match compile r.pattern with
  | some test => test description
  | none => false

/-! ## Claims -/

/-- C5: for every input transaction list and options record, `processBatch`
returns exactly one `ProcessResult` per input transaction and the i-th result
refers to the i-th input transaction: the results' transactions, in order,
are exactly the input list. -/
theorem processBatch_one_result_per_input (compile : RegexCompile)
    (parseDate : String → Option Int) (invoiceDb : Nat → List Invoice)
    (config : AllConfig) (transactions : List Transaction) (options : Options) :
    (processBatch compile parseDate invoiceDb config transactions options).length
        = transactions.length
    ∧ (processBatch compile parseDate invoiceDb config transactions options).map
        (fun r => r.transaction) = transactions := by
  constructor
  · rw [processBatch_eq_map, List.length_map]
  · rw [processBatch_eq_map, List.map_map]
    have h : ∀ txn ∈ transactions,
        ((fun r => r.transaction) ∘
            processOne compile parseDate invoiceDb config options transactions) txn
          = id txn := by
      intro txn _
      exact processOne_transaction compile parseDate invoiceDb config options
        transactions txn
    rw [List.map_congr_left h, List.map_id]

/-- C3: `shouldSkip` decides by the first applicable rule in fixed order: no
suggestion → skip `no_match`; suggestion equal to the current category → skip
`already_correct` regardless of force; otherwise, without force, an update
timestamp strictly later than creation → skip `manual_edit`; otherwise no
skip.  With force set, a `manual_edit` skip never occurs. -/
theorem shouldSkip_rule_order (parseDate : String → Option Int)
    (t : Transaction) (sug : Option Nat) (force : Bool) :
    (sug = none → shouldSkip parseDate t sug force
        = { skip := true, reason := some Reason.no_match })
    ∧ (∀ c, sug = some c → t.category_id = c →
        shouldSkip parseDate t sug force
          = { skip := true, reason := some Reason.already_correct })
    ∧ (∀ c, sug = some c → t.category_id ≠ c → force = false →
        dateGt (parseDate t.updated_at) (parseDate t.created_at) = true →
        shouldSkip parseDate t sug force
          = { skip := true, reason := some Reason.manual_edit })
    ∧ (∀ c, sug = some c → t.category_id ≠ c →
        (force = true ∨
          dateGt (parseDate t.updated_at) (parseDate t.created_at) = false) →
        shouldSkip parseDate t sug force = { skip := false, reason := none })
    ∧ (shouldSkip parseDate t sug true).reason ≠ some Reason.manual_edit := by
  refine ⟨?_, ?_, ?_, ?_, ?_⟩
  · intro h
    subst h
    rfl
  · intro c h hcat
    subst h
    unfold shouldSkip
    dsimp only
    rw [if_pos hcat]
  · intro c h hcat hforce hdate
    subst h
    subst hforce
    unfold shouldSkip
    dsimp only
    rw [if_neg hcat, if_pos (by rw [hdate]; rfl)]
  · intro c h hcat hor
    subst h
    unfold shouldSkip
    dsimp only
    rw [if_neg hcat]
    rcases hor with hf | hd
    · subst hf
      rw [if_neg (by simp)]
    · rw [if_neg (by rw [hd]; simp)]
  · cases sug with
    | none =>
      unfold shouldSkip
      dsimp only
      decide
    | some c =>
      unfold shouldSkip
      dsimp only
      by_cases hcat : t.category_id = c
      · rw [if_pos hcat]
        decide
      · rw [if_neg hcat, if_neg (by simp)]
        decide

/-- Witness for C3: on a concrete edited transaction, `manual_edit` without
force and no skip with force. -/
theorem shouldSkip_rule_order_witness :
    shouldSkip laterParse fxTxEdited (some 7) false
        = { skip := true, reason := some Reason.manual_edit }
    ∧ shouldSkip laterParse fxTxEdited (some 7) true
        = { skip := false, reason := none } :=
  ⟨(shouldSkip_rule_order laterParse fxTxEdited (some 7) false).2.2.1 7 rfl
      (by decide) rfl (by decide),
    (shouldSkip_rule_order laterParse fxTxEdited (some 7) true).2.2.2.1 7 rfl
      (by decide) (Or.inl rfl)⟩

/-- C7: `matchCategory` returns the target category of the first rule (in
list order) whose pattern compiles and matches; a rule whose pattern fails to
compile is skipped and evaluation continues with the next rule (never
aborting); it returns none when no rule matches; and on the spec's example
the earlier, less specific `UBER` rule beats the later `UBER EATS` rule. -/
theorem matchCategory_first_match (compile : RegexCompile) (description : String)
    (rules : List Rule) :
    matchCategory compile description rules
        = (rules.find? (ruleMatches compile description)).map (fun r => r.category)
    ∧ matchCategory literalCompile "UBER EATS TRIP"
        [⟨"UBER", "transport", none⟩, ⟨"UBER EATS", "food", none⟩]
        = some "transport" := by
  constructor
  · induction rules with
    | nil => rfl
    | cons r rest ih =>
      unfold matchCategory
      cases hc : compile r.pattern with
      | none =>
        have hrm : ruleMatches compile description r = false := by
          unfold ruleMatches
          rw [hc]
        rw [List.find?_cons_of_neg _ (by simp [hrm])]
        exact ih
      | some test =>
        by_cases htd : test description = true
        · have hrm : ruleMatches compile description r = true := by
            unfold ruleMatches
            rw [hc]
            exact htd
          rw [List.find?_cons_of_pos _ hrm]
          dsimp only
          rw [if_pos htd]
          rfl
        · have hrm : ruleMatches compile description r = false := by
            unfold ruleMatches
            rw [hc]
            simpa using htd
          rw [List.find?_cons_of_neg _ (by simp [hrm])]
          dsimp only
          rw [if_neg htd]
          exact ih
  · decide

/-- C6: installment resolution never looks forward: restricting the batch or
the invoice window to installments strictly below the target's leaves both
resolvers unchanged; the same-batch candidate found has installment exactly
target − 1; every cross-invoice contributor has a strictly smaller
installment. -/
theorem installment_never_looks_forward (t : Transaction)
    (l : List Transaction) (invs : List Invoice) :
    resolveInstallment t (l.filter (belowTarget t)) = resolveInstallment t l
    ∧ findInstallmentCategory t (restrictBelow t invs)
        = findInstallmentCategory t invs
    ∧ (∀ c, resolveInstallment t l = some c →
        ∃ t2 ∈ l, t2.installment = t.installment - 1 ∧ t2.category_id = c)
    ∧ (∀ c ∈ priorCategories t invs, ∃ t2 ∈ windowTransactions invs,
        t2.installment < t.installment ∧ t2.category_id = c) := by
  refine ⟨resolveInstallment_restrict t l,
    findInstallmentCategory_restrict t invs, ?_, ?_⟩
  · intro c hc
    unfold resolveInstallment at hc
    split at hc
    · exact absurd hc (by simp)
    · dsimp only at hc
      split at hc
      next prev heq =>
        injection hc with hc
        have hp := List.find?_some heq
        rw [Bool.and_eq_true, Bool.and_eq_true] at hp
        refine ⟨prev, List.mem_of_find?_eq_some heq, ?_, hc⟩
        have := hp.1.1
        simpa using this
      next => exact absurd hc (by simp)
  · intro c hc
    obtain ⟨t2, ht2, hpred, hcat⟩ := mem_priorCategories t invs c hc
    refine ⟨t2, ht2, ?_, hcat⟩
    unfold priorPred sameSeriesPrior at hpred
    rw [Bool.and_eq_true, Bool.and_eq_true, Bool.and_eq_true] at hpred
    have := hpred.1.1.2
    simpa using this

/-- Witness for C6: the concrete batch of the spec's Example 1 resolves the
second Netflix installment from the first one. -/
theorem installment_never_looks_forward_witness :
    ∃ t2 ∈ [fxTxNetflix1, fxTxNetflix2],
      t2.installment = fxTxNetflix2.installment - 1 ∧ t2.category_id = 99999 :=
  (installment_never_looks_forward fxTxNetflix2 [fxTxNetflix1, fxTxNetflix2]
    []).2.2.1 99999 (by decide)

/-- C2 counterexample: with the map `UBER* → Uber` and the already renamed
description `"Uber"`, the glob matches the entire description and
`matchRename` itself returns the identical replacement — not none. -/
theorem matchRename_noop_counterexample :
    matchRename "Uber" [("UBER*", "Uber")] = some "Uber"
      ∧ matchRename "Uber" [("UBER*", "Uber")] ≠ none := by
  constructor
  · decide
  · decide

/-- C2 (amended): `matchRename` returns none when no glob pattern matches the
entire description; a matched no-op replacement, however, is returned as-is
by `matchRename` and suppressed one level up — `processBatch` never stages a
description change equal to the transaction's current description. -/
theorem matchRename_none_noop_suppressed :
    (∀ (description : String) (renameMap : Rename),
      (∀ p ∈ renameMap, globMatch p.1.data description.data = false) →
      matchRename description renameMap = none)
    ∧ (∀ (compile : RegexCompile) (parseDate : String → Option Int)
        (invoiceDb : Nat → List Invoice) (config : AllConfig) (options : Options)
        (transactions : List Transaction) (txn : Transaction) (ch : Changes),
        (processOne compile parseDate invoiceDb config options transactions
            txn).changes = some ch →
        ch.description ≠ some txn.description) := by
  constructor
  · intro description renameMap
    induction renameMap with
    | nil => intro _; rfl
    | cons p rest ih =>
      intro h
      obtain ⟨pat, nn⟩ := p
      have hfalse : globMatch pat.data description.data = false :=
        h (pat, nn) (by simp)
      unfold matchRename
      rw [if_neg (by simp [hfalse])]
      exact ih fun q hq => h q (by simp [hq])
  · intro compile parseDate invoiceDb config options transactions txn ch hch
    have hceq := processOne_changes_some compile parseDate invoiceDb config options
      transactions txn ch hch
    rw [hceq]
    exact stagedDescription_ne config options txn

/-- The changes staged for the Uber rename fixture. -/
def fxChUber : Changes := ⟨none, some "Uber", none, none⟩

/-- Witness for the amended C2: no-match gives none, and the concrete staged
rename differs from the original description. -/
theorem matchRename_none_noop_suppressed_witness :
    matchRename "XYZ" [("AB", "Ab")] = none
      ∧ fxChUber.description ≠ some fxTxUber.description :=
  ⟨matchRename_none_noop_suppressed.1 "XYZ" [("AB", "Ab")] (by decide),
    matchRename_none_noop_suppressed.2 literalCompile constParse emptyInvoiceDb
      fxCfgUber fxOptsRename [fxTxUber] fxTxUber fxChUber (by decide)⟩

/-- C8: when no installment category is inherited and a rule's pattern
matches but its target name resolves to no id in the CategoryTable, the
transaction is treated exactly as a no-match: a skip result with reason
`no_match` (the embedding is total, so the batch never crashes). -/
theorem unresolvable_name_is_no_match (compile : RegexCompile)
    (parseDate : String → Option Int) (invoiceDb : Nat → List Invoice)
    (config : AllConfig) (options : Options) (transactions : List Transaction)
    (txn : Transaction) (name : String)
    (hr : options.renameOnly = false) (ht : options.tagsOnly = false)
    (hinh : truthyId (inheritedCategory invoiceDb options transactions txn) = false)
    (hmatch : matchCategory compile txn.description config.rules = some name)
    (hres : getCategoryId name config.categories = none) :
    processOne compile parseDate invoiceDb config options transactions txn
      = { transaction := txn, action := Action.skip, changes := none,
          reason := some Reason.no_match } := by
  have hnorm : (!options.renameOnly && !options.tagsOnly) = true := by
    rw [hr, ht]
    rfl
  have hsug : (processSug compile invoiceDb config options transactions txn).1
      = none := by
    unfold processSug
    rw [if_pos hnorm]
    unfold suggestedCategory
    dsimp only
    rw [hinh]
    simp only [Bool.false_eq_true, if_false]
    rw [hmatch]
    dsimp only
    by_cases hn : name = ""
    · rw [if_neg (by simp [hn])]
    · rw [if_pos (by simp [hn])]
      exact hres
  have hskip : shouldSkip parseDate txn
      (processSug compile invoiceDb config options transactions txn).1 options.force
      = { skip := true, reason := some Reason.no_match } := by
    rw [hsug]
    rfl
  rw [processOne_skip compile parseDate invoiceDb config options transactions txn
    hnorm (by rw [hskip])]
  rw [hskip]

/-- Witness for C8: the ghost rule matches `"FOO BAR"`, resolves to no table
id, and the result is a `no_match` skip. -/
theorem unresolvable_name_is_no_match_witness :
    processOne literalCompile constParse emptyInvoiceDb fxCfgGhost fxOptsNormal
        [fxTxFoo] fxTxFoo
      = { transaction := fxTxFoo, action := Action.skip, changes := none,
          reason := some Reason.no_match } :=
  unresolvable_name_is_no_match literalCompile constParse emptyInvoiceDb fxCfgGhost
    fxOptsNormal [fxTxFoo] fxTxFoo "ghost" rfl rfl (by decide) (by decide) (by decide)

/-- In `tagsOnly` mode the staged changes consist only of the tags derived
from the transaction's current category id. -/
theorem stageChanges_tagsOnly (config : AllConfig) (options : Options)
    (txn : Transaction) (ht : options.tagsOnly = true) :
    stageChanges config options none txn
      = { category_id := none, description := none, notes := none,
          tags :=
            if (getTagsForCategory (some txn.category_id) config.tags
                (buildCategoryMap config.categories)).isEmpty then none
            else some (getTagsForCategory (some txn.category_id) config.tags
              (buildCategoryMap config.categories)) } := by
  unfold stageChanges stagedDescription stagedTagsChange
  rw [ht]
  dsimp only [truthyId]
  simp

/-- C9: with `tagsOnly` set, tags are derived from the transaction's current
category id (resolved to a name via the CategoryTable, then looked up in the
TagTable); a tags change is staged only when the derived list is non-empty,
and then the action is `update` with no category or description change;
otherwise the result is a bare skip. -/
theorem tagsOnly_derives_from_current (compile : RegexCompile)
    (parseDate : String → Option Int) (invoiceDb : Nat → List Invoice)
    (config : AllConfig) (options : Options) (transactions : List Transaction)
    (txn : Transaction) (ht : options.tagsOnly = true) :
    (getTagsForCategory (some txn.category_id) config.tags
        (buildCategoryMap config.categories) ≠ [] →
      processOne compile parseDate invoiceDb config options transactions txn
        = { transaction := txn, action := Action.update,
            changes := some (⟨none, none, none,
              some (getTagsForCategory (some txn.category_id) config.tags
                (buildCategoryMap config.categories))⟩ : Changes),
            reason := none })
    ∧ (getTagsForCategory (some txn.category_id) config.tags
        (buildCategoryMap config.categories) = [] →
      processOne compile parseDate invoiceDb config options transactions txn
        = { transaction := txn, action := Action.skip, changes := none,
            reason := none }) := by
  have hno : (!options.renameOnly && !options.tagsOnly &&
      (shouldSkip parseDate txn
        (processSug compile invoiceDb config options transactions txn).1
        options.force).skip) = false := by
    rw [ht]
    simp
  have hsug : processSug compile invoiceDb config options transactions txn
      = (none, none) := by
    unfold processSug
    rw [if_neg (by rw [ht]; simp)]
  rw [processOne_noskip compile parseDate invoiceDb config options transactions txn
    hno, hsug]
  dsimp only
  rw [stageChanges_tagsOnly config options txn ht]
  constructor
  · intro hne
    have hemp : (getTagsForCategory (some txn.category_id) config.tags
        (buildCategoryMap config.categories)).isEmpty = false := by
      rw [Bool.eq_false_iff]
      intro hcontra
      exact hne (List.isEmpty_iff.mp hcontra)
    rw [if_neg (by simp [hemp])]
    rfl
  · intro heq
    rw [if_pos (by rw [heq]; rfl)]
    rfl

/-- Witness for C9: the spec's Example 5 — category 42 (groceries) derives
tags essential and food, action `update`, nothing else staged. -/
theorem tagsOnly_derives_from_current_witness :
    processOne literalCompile constParse emptyInvoiceDb fxCfgGroceries fxOptsTags
        [fxTxGroceries] fxTxGroceries
      = { transaction := fxTxGroceries, action := Action.update,
          changes := some (⟨none, none, none, some ["essential", "food"]⟩ : Changes),
          reason := none } := by
  have h := (tagsOnly_derives_from_current literalCompile constParse emptyInvoiceDb
    fxCfgGroceries fxOptsTags [fxTxGroceries] fxTxGroceries rfl).1 (by decide)
  rw [h]
  rfl

/-- C10: `findInstallmentCategory` collects only prior installments with a
truthy (nonzero) category id, so any returned id is nonzero and comes from
the scan; when every qualifying prior installment is uncategorized, it
returns none. -/
theorem findInstallment_skips_uncategorized (t : Transaction)
    (invs : List Invoice) :
    (∀ c, findInstallmentCategory t invs = some c →
      c ≠ 0 ∧ c ∈ priorCategories t invs)
    ∧ ((∀ t2 ∈ qualifyingPrior t invs, t2.category_id = 0) →
        findInstallmentCategory t invs = none) := by
  constructor
  · intro c hc
    have hmem := findInstallmentCategory_mem t invs c hc
    exact ⟨priorCategories_nonzero t invs c hmem, hmem⟩
  · intro hall
    apply findInstallmentCategory_none_of_empty
    rw [priorCategories_eq]
    have hfil : (windowTransactions invs).filter (priorPred t) = [] := by
      rw [List.filter_eq_nil_iff]
      intro x hx
      unfold priorPred
      by_cases hs : sameSeriesPrior t x = true
      · have hz : x.category_id = 0 := by
          apply hall
          unfold qualifyingPrior
          exact List.mem_filter.mpr ⟨hx, hs⟩
        simp [hs, hz]
      · simp [Bool.eq_false_iff.mpr hs]
    rw [hfil]
    rfl

/-- Witness for C10: one qualifying prior installment, category 0, and the
resolver returns none. -/
theorem findInstallment_skips_uncategorized_witness :
    findInstallmentCategory fxTxTarget [fxInvZero] = none :=
  (findInstallment_skips_uncategorized fxTxTarget [fxInvZero]).2 (by decide)

/-- C4: for a transaction with installment > 1, the scan collects exactly the
category ids of window transactions with the same `total_installments`, the
same base description, a strictly smaller installment and a truthy category;
when nothing qualifies the resolver returns none, and otherwise it returns
the mode of the collected ids with ties broken by first-seen order (and, the
embedding being total, never raises on ambiguity). -/
theorem findInstallment_mode_spec (t : Transaction) (invs : List Invoice)
    (h2 : 1 < t.installment) :
    priorCategories t invs
        = ((windowTransactions invs).filter (priorPred t)).map
            (fun x => x.category_id)
    ∧ (priorCategories t invs = [] → findInstallmentCategory t invs = none)
    ∧ (priorCategories t invs ≠ [] →
        ∃ m, findInstallmentCategory t invs = some m ∧
          isFirstSeenMode (priorCategories t invs) m) :=
  ⟨priorCategories_eq t invs, findInstallmentCategory_none_of_empty t invs,
    fun hne => findInstallmentCategory_spec t invs h2 hne⟩

/-- Witness for C4: the two-invoice fixture with collected categories
[7, 9, 9, 7] yields a mode satisfying the first-seen tie-break. -/
theorem findInstallment_mode_spec_witness :
    ∃ m, findInstallmentCategory fxTxTarget [fxInv1, fxInv2] = some m ∧
      isFirstSeenMode (priorCategories fxTxTarget [fxInv1, fxInv2]) m :=
  (findInstallment_mode_spec fxTxTarget [fxInv1, fxInv2] (by decide)).2.2
    (by decide)

/-- C1 counterexample: with an empty CategoryTable, installment inheritance
still stages the prior installment's category id 99999 — an id outside the
table's id space. -/
theorem staged_category_outside_table_cex :
    (processBatch literalCompile constParse emptyInvoiceDb fxCfgEmpty
        [fxTxNetflix1, fxTxNetflix2] fxOptsNormal).map stagedCategory
        = [none, some 99999]
    ∧ allCategoryIds fxCfgEmpty.categories = [] := by
  constructor
  · decide
  · rfl

/-- Per-transaction provenance of a staged category id. -/
theorem processOne_staged_provenance (compile : RegexCompile)
    (parseDate : String → Option Int) (invoiceDb : Nat → List Invoice)
    (config : AllConfig) (options : Options) (transactions : List Transaction)
    (txn : Transaction) (c : Nat)
    (h : stagedCategory (processOne compile parseDate invoiceDb config options
        transactions txn) = some c) :
    c ∈ allCategoryIds config.categories
      ∨ (∃ t2 ∈ transactions, t2.category_id = c)
      ∨ (∃ t2 ∈ windowTransactions (selectInvoiceWindow
            (invoiceDb (options.cardId.getD 0)) (options.invoiceId.getD 0)),
          t2.category_id = c) := by
  unfold stagedCategory at h
  cases hch : (processOne compile parseDate invoiceDb config options transactions
      txn).changes with
  | none =>
    rw [hch] at h
    exact absurd h (by simp)
  | some ch =>
    rw [hch] at h
    dsimp only at h
    have hceq := processOne_changes_some compile parseDate invoiceDb config options
      transactions txn ch hch
    rw [hceq] at h
    unfold stageChanges at h
    dsimp only at h
    by_cases htr : truthyId
        (processSug compile invoiceDb config options transactions txn).1 = true
    · rw [if_pos htr] at h
      rcases processSug_fst_provenance compile invoiceDb config options transactions
        txn c h with hl | hinher
      · exact Or.inl hl
      · rcases inheritedCategory_provenance invoiceDb options transactions txn c
          hinher with h1 | h2
        · exact Or.inr (Or.inl h1)
        · exact Or.inr (Or.inr h2)
    · rw [if_neg htr] at h
      exact absurd h (by simp)

/-- C1 (amended): every `ProcessResult` produced by `processBatch` whose
changes stage a category id stages either an id of the CategoryTable
(pattern-derived suggestions) or the category id of some transaction of the
batch or of the cached invoice window (installment-inherited suggestions);
inheritance may stage an id outside the table. -/
theorem staged_category_provenance (compile : RegexCompile)
    (parseDate : String → Option Int) (invoiceDb : Nat → List Invoice)
    (config : AllConfig) (options : Options) (transactions : List Transaction)
    (r : ProcessResult) (c : Nat)
    (hr : r ∈ processBatch compile parseDate invoiceDb config transactions options)
    (h : stagedCategory r = some c) :
    c ∈ allCategoryIds config.categories
      ∨ (∃ t2 ∈ transactions, t2.category_id = c)
      ∨ (∃ t2 ∈ windowTransactions (selectInvoiceWindow
            (invoiceDb (options.cardId.getD 0)) (options.invoiceId.getD 0)),
          t2.category_id = c) := by
  rw [processBatch_eq_map] at hr
  obtain ⟨txn, _, hre⟩ := List.mem_map.mp hr
  rw [← hre] at h
  exact processOne_staged_provenance compile parseDate invoiceDb config options
    transactions txn c h

/-- The result `processBatch` produces for the `MERCADO` fixture. -/
def fxResMercado : ProcessResult :=
  ⟨fxTxMercado, Action.update, some ⟨some 10, none, none, none⟩,
    some Reason.pattern⟩

/-- Witness for the amended C1: the `MERCADO` rule stages id 10, which is in
the CategoryTable. -/
theorem staged_category_provenance_witness :
    10 ∈ allCategoryIds fxCfgPattern.categories
      ∨ (∃ t2 ∈ [fxTxMercado], t2.category_id = 10)
      ∨ (∃ t2 ∈ windowTransactions (selectInvoiceWindow
            (emptyInvoiceDb (fxOptsNormal.cardId.getD 0))
            (fxOptsNormal.invoiceId.getD 0)),
          t2.category_id = 10) :=
  staged_category_provenance literalCompile constParse emptyInvoiceDb fxCfgPattern
    fxOptsNormal [fxTxMercado] fxResMercado 10 (by decide) (by decide)

end Ozz
